import Mathlib

/-!
Shallow embedding of the dominant-color extraction core of the
color-palette application: the pure logic of `extractColorsFromImage`
and its helper `rgbToHex`, together with the target-size computation of
the downscaling step.  Pixel buffers are lists of natural numbers (the
decoded RGBA bytes, row-major, 4 bytes per pixel); out-of-bounds reads
are `Option.none`, mirroring JavaScript array indexing returning
`undefined`.
-/

namespace ColorPalette

/-- One entry of the color frequency map built in `extractColorsFromImage`:
the quantized representative RGB triple and the occurrence count.  Embeds
the record `{ r, g, b, count }` stored in `colorMap`. -/
structure Bucket where
  r : Nat
  g : Nat
  b : Nat
  count : Nat
deriving DecidableEq

/-- The character JavaScript's `Number.prototype.toString(16)` uses for a
single hex digit: `'0'`-`'9'` for 0-9 and lowercase `'a'`-`'f'` for 10-15. -/
def hexDigit (n : Nat) : Char :=
  if n < 10 then Char.ofNat (48 + n) else Char.ofNat (87 + n)

/-- `x.toString(16)` left-padded to two characters, as done per channel in
`rgbToHex`, for the clamped range `0 ≤ x ≤ 255` the encoder receives: the
rendering has one digit exactly when `x < 16`, and then a `'0'` is
prepended. -/
def padHex2 (x : Nat) : List Char :=
  if x < 16 then ['0', hexDigit x] else [hexDigit (x / 16), hexDigit (x % 16)]

/-- `Math.max(0, Math.min(255, Math.floor(x)))` from `rgbToHex` (floor
innermost, then the upper clamp, then the lower clamp). -/
def clampByte (x : ℚ) : Nat :=
  (max 0 (min 255 ⌊x⌋)).toNat

/-- The `rgbToHex` helper: clamp each channel, render each as two lowercase
hex digits, and prepend `'#'`. -/
def rgbToHex (r g b : ℚ) : String :=
  String.mk ('#' :: (padHex2 (clampByte r) ++ padHex2 (clampByte g) ++ padHex2 (clampByte b)))

/-- `Math.round(x / 20) * 20`, the per-channel quantization.  JavaScript's
`Math.round` rounds halves towards `+∞`, which on a natural input `x` is
`⌊(x + 10) / 20⌋`, i.e. natural division; the theorem `quantize_eq_round`
below proves this embedding agrees with Mathlib's `round` (the exact
semantics of `Math.round`) on every natural input. -/
def quantize (x : Nat) : Nat :=
  (x + 10) / 20 * 20

/-- Insert-or-increment on the frequency map.  The JavaScript `Map` is keyed
by the template string `"r-g-b"`, which is in bijection with the quantized
triple (decimal renderings of naturals joined by `'-'` parse unambiguously),
so the embedding keys the insertion-ordered association list by the triple
itself: a present key bumps its count in place, a new key is appended. -/
def bumpKey (r g b : Nat) : List Bucket → List Bucket
  | [] => [⟨r, g, b, 1⟩]
  | e :: es =>
    if e.r = r ∧ e.g = g ∧ e.b = b then { e with count := e.count + 1 } :: es
    else e :: bumpKey r g b es

/-- One iteration of the sampling loop, phrased on the suffix of the pixel
buffer starting at the current byte index: read `pixels[i]`, `pixels[i+1]`,
`pixels[i+2]`, `pixels[i+3]`, then skip the pixel when `alpha < 128` (a
comparison that is false in JavaScript when `alpha` is `undefined`) or when
any of `r`, `g`, `b` reads out of bounds; otherwise quantize the channels
and insert-or-increment the frequency map. -/
def step (l : List Nat) (m : List Bucket) : List Bucket :=
  match l.get? 0, l.get? 1, l.get? 2 with
  | some r, some g, some b =>
    match l.get? 3 with
    | some a =>
      if a < 128 then m else bumpKey (quantize r) (quantize g) (quantize b) m
    | none => bumpKey (quantize r) (quantize g) (quantize b) m
  | _, _, _ => m

/-- The sampling loop `for (let i = 0; i < pixels.length; i += 16)`:
advancing the byte index by 16 is dropping 16 bytes from the suffix, and the
loop runs while the suffix is nonempty. -/
def sampleLoop : List Nat → List Bucket → List Bucket
  | [], m => m
  | x :: t, m => sampleLoop ((x :: t).drop 16) (step (x :: t) m)
termination_by l _ => l.length
decreasing_by simp [List.length_drop]; omega

/-- The number of iterations the sampling loop performs on a buffer (the
number of visited pixel positions). -/
def countVisits : List Nat → Nat
  | [] => 0
  | x :: t => countVisits ((x :: t).drop 16) + 1
termination_by l => l.length
decreasing_by simp [List.length_drop]; omega

/-- The comparison order of `.sort((a, b) => b.count - a.count)`: `a`
precedes `b` when `a`'s count is at least `b`'s. -/
def countGe (a b : Bucket) : Prop := b.count ≤ a.count

instance : DecidableRel countGe := fun a b => Nat.decLe b.count a.count

instance : IsTotal Bucket countGe := ⟨fun a b => le_total b.count a.count⟩

instance : IsTrans Bucket countGe := ⟨fun _ _ _ h1 h2 => le_trans h2 h1⟩

/-- `.sort((a, b) => b.count - a.count)` on the array of map values:
JavaScript `Array.prototype.sort` is specified to be stable, so the
embedding is a stable insertion sort in descending count order. -/
def sortDesc (l : List Bucket) : List Bucket := l.insertionSort countGe

/-- `.sort(...).slice(0, 5)`: the ranked buckets truncated to the top 5. -/
def rankBuckets (l : List Bucket) : List Bucket := (sortDesc l).take 5

/-- The pure core of `extractColorsFromImage` on a decoded pixel buffer:
sample, quantize and count; rank; encode each surviving bucket with
`rgbToHex`; and apply the final defensive `length === 7` filter. -/
def extract (pixels : List Nat) : List String :=
  ((rankBuckets (sampleLoop pixels [])).map
      (fun e => rgbToHex (e.r : ℚ) (e.g : ℚ) (e.b : ℚ))).filter
    (fun c => c.length == 7)

/-- `Math.min(maxSize / width, maxSize / height)` with `maxSize = 300`, the
scale ratio of the downscaling step. -/
def scaleRatio (w h : Nat) : ℚ := min (300 / (w : ℚ)) (300 / (h : ℚ))

/-- `canvas.width = imageElement.width * ratio`: the canvas `width` IDL
attribute is an `unsigned long`, so the assigned (nonnegative) product is
truncated to an integer, i.e. floored. -/
def canvasWidth (w h : Nat) : ℤ := ⌊(w : ℚ) * scaleRatio w h⌋

/-- `canvas.height = imageElement.height * ratio`, truncated likewise. -/
def canvasHeight (w h : Nat) : ℤ := ⌊(h : ℚ) * scaleRatio w h⌋

/-- The regular expression `^#[0-9a-f]{6}$` as an executable predicate. -/
def isLowerHexDigit (c : Char) : Bool :=
  (('0' ≤ c) && (c ≤ '9')) || (('a' ≤ c) && (c ≤ 'f'))

/-- A string matches `^#[0-9a-f]{6}$`: a `'#'` followed by exactly six
lowercase hex digits. -/
def matchesHexPattern (s : String) : Bool :=
  match s.data with
  | '#' :: cs => (cs.length == 6) && cs.all isLowerHexDigit
  | _ => false

/-- The rounding convention the spec names for the quantizer: round half
away from zero. -/
def specRound (q : ℚ) : ℤ :=
  if 0 ≤ q then ⌊q + 1 / 2⌋ else ⌈q - 1 / 2⌉

/-- The encoder contract's channel transformation in the spec's wording:
clamp to `[0, 255]` first, then truncate to an integer. -/
def specClamp (x : ℚ) : ℤ := ⌊max 0 (min 255 x)⌋

/-- `k` successive insert-or-increments of the quantized single color
(100, 160, 200) — the net effect of the sampling loop on a buffer that
repeats the pixel (100, 150, 200, 255). -/
def bumpRep : Nat → List Bucket → List Bucket
  | 0, m => m
  | k + 1, m => bumpRep k (bumpKey 100 160 200 m)

/-- The quantization key of a bucket (the `Map` key of the source,
rendered as a triple). -/
def keyOf (e : Bucket) : Nat × Nat × Nat := (e.r, e.g, e.b)

/-- The range of the quantizer on valid bytes: each channel of a bucket
created during the scan is a multiple of 20 that is at most 260. -/
def chanProp (r g b : Nat) : Prop :=
  (20 ∣ r ∧ r ≤ 260) ∧ (20 ∣ g ∧ g ≤ 260) ∧ (20 ∣ b ∧ b ≤ 260)

/-- The `quantize` embedding computes exactly `Math.round(x / 20) * 20`:
Mathlib's `round` is round-half-towards-`+∞`, the semantics of
JavaScript's `Math.round`. -/
theorem quantize_eq_round (x : Nat) : (quantize x : ℤ) = round ((x : ℚ) / 20) * 20 := by
  have h1 : ((x : ℚ) / 20 + 1 / 2) = ((x + 10 : ℕ) : ℚ) / ((20 : ℕ) : ℚ) := by
    push_cast
    ring
  rw [round_eq, h1, Rat.floor_natCast_div_natCast]
  unfold quantize
  push_cast
  ring

/-- On the natural channel values the pipeline feeds it, `clampByte` is
just the upper clamp at 255. -/
theorem clampByte_natCast (n : Nat) : clampByte (n : ℚ) = min 255 n := by
  unfold clampByte
  rw [Int.floor_natCast]
  omega

/-- Every hex digit the encoder emits is a lowercase hex-digit character. -/
theorem hexDigit_hex : ∀ n, n < 16 → isLowerHexDigit (hexDigit n) = true := by decide

/-- Hex digits are distinct for distinct values below 16. -/
theorem hexDigit_inj : ∀ a, a < 16 → ∀ b, b < 16 → hexDigit a = hexDigit b → a = b := by decide

/-- A nonzero digit never renders as the padding character. -/
theorem hexDigit_ne_zero : ∀ n, n < 16 → n ≠ 0 → hexDigit n ≠ '0' := by decide

/-- A channel rendering is always exactly two characters. -/
theorem padHex2_length (x : Nat) : (padHex2 x).length = 2 := by
  unfold padHex2
  split <;> rfl

/-- The clamp in `rgbToHex` really bounds the channel by 255. -/
theorem clampByte_le (x : ℚ) : clampByte x ≤ 255 := by
  unfold clampByte
  rcases le_total (255 : ℤ) ⌊x⌋ with h | h
  · rw [min_eq_left h]
    omega
  · rw [min_eq_right h]
    omega

/-- Both characters of a clamped channel rendering are lowercase hex digits. -/
theorem padHex2_all_hex (x : Nat) (hx : x ≤ 255) :
    (padHex2 x).all isLowerHexDigit = true := by
  unfold padHex2
  by_cases h : x < 16
  · rw [if_pos h]
    simp only [List.all_cons, List.all_nil, Bool.and_true, Bool.and_eq_true]
    exact ⟨by decide, hexDigit_hex x h⟩
  · rw [if_neg h]
    simp only [List.all_cons, List.all_nil, Bool.and_true, Bool.and_eq_true]
    exact ⟨hexDigit_hex (x / 16) (by omega), hexDigit_hex (x % 16) (by omega)⟩

/-- Two clamped channel renderings agree only on equal channels. -/
theorem padHex2_inj (a b : Nat) (ha : a ≤ 255) (hb : b ≤ 255)
    (h : padHex2 a = padHex2 b) : a = b := by
  unfold padHex2 at h
  by_cases h1 : a < 16 <;> by_cases h2 : b < 16
  · rw [if_pos h1, if_pos h2] at h
    injection h with _ h
    injection h with h _
    exact hexDigit_inj a h1 b h2 h
  · rw [if_pos h1, if_neg h2] at h
    injection h with h0 _
    exact absurd h0.symm (hexDigit_ne_zero (b / 16) (by omega) (by omega))
  · rw [if_neg h1, if_pos h2] at h
    injection h with h0 _
    exact absurd h0 (hexDigit_ne_zero (a / 16) (by omega) (by omega))
  · rw [if_neg h1, if_neg h2] at h
    injection h with hA h
    injection h with hB _
    have e1 := hexDigit_inj (a / 16) (by omega) (b / 16) (by omega) hA
    have e2 := hexDigit_inj (a % 16) (by omega) (b % 16) (by omega) hB
    omega

/-- Every string `rgbToHex` produces matches `^#[0-9a-f]{6}$`. -/
theorem rgbToHex_matches (r g b : ℚ) : matchesHexPattern (rgbToHex r g b) = true := by
  unfold rgbToHex matchesHexPattern
  simp [List.all_append, padHex2_length, padHex2_all_hex _ (clampByte_le r),
    padHex2_all_hex _ (clampByte_le g), padHex2_all_hex _ (clampByte_le b)]

/-- Every string `rgbToHex` produces has length exactly 7. -/
theorem rgbToHex_length (r g b : ℚ) : (rgbToHex r g b).length = 7 := by
  show ('#' :: (padHex2 (clampByte r) ++ padHex2 (clampByte g) ++ padHex2 (clampByte b))).length = 7
  simp [padHex2_length]

/-- Flooring commutes with the upper clamp at the integer bound 255. -/
theorem floor_min_255 (x : ℚ) : ⌊min (255 : ℚ) x⌋ = min 255 ⌊x⌋ := by
  rcases le_total x 255 with h | h
  · rw [min_eq_right h, min_eq_right]
    have h2 : ⌊x⌋ ≤ ⌊(255 : ℚ)⌋ := Int.floor_le_floor h
    have h3 : ⌊(255 : ℚ)⌋ = 255 := by norm_num
    omega
  · rw [min_eq_left h, min_eq_left]
    · norm_num
    · exact Int.le_floor.2 (by exact_mod_cast h)

/-- Flooring commutes with the lower clamp at the integer bound 0. -/
theorem floor_max_zero (y : ℚ) : ⌊max 0 y⌋ = max 0 ⌊y⌋ := by
  rcases le_total y 0 with h | h
  · rw [max_eq_left h, Int.floor_zero, max_eq_left]
    have h2 : ⌊y⌋ ≤ ⌊(0 : ℚ)⌋ := Int.floor_le_floor h
    simpa using h2
  · rw [max_eq_right h, max_eq_right]
    exact Int.floor_nonneg.2 h

/-- The spec's clamp-then-truncate equals the code's truncate-then-clamp,
because both clamp bounds are integers. -/
theorem specClamp_eq (x : ℚ) : specClamp x = max 0 (min 255 ⌊x⌋) := by
  unfold specClamp
  rw [floor_max_zero, floor_min_255]

/-- The spec-worded channel transformation computes the same byte as the
code's `clampByte`. -/
theorem specClamp_toNat (x : ℚ) : (specClamp x).toNat = clampByte x := by
  rw [specClamp_eq]
  rfl

/-- Claim C4: for every representative triple, possibly with channels
outside 0..255, the encoder clamps each channel to [0, 255], truncates it
to an integer, and formats the result as a 7-character lowercase string
with each channel zero-padded to two hex digits. -/
theorem encoder_spec (r g b : ℚ) :
    rgbToHex r g b =
      String.mk ('#' :: (padHex2 (specClamp r).toNat ++ padHex2 (specClamp g).toNat ++
        padHex2 (specClamp b).toNat))
  ∧ matchesHexPattern (rgbToHex r g b) = true
  ∧ (rgbToHex r g b).length = 7 := by
  rw [specClamp_toNat, specClamp_toNat, specClamp_toNat]
  exact ⟨rfl, rgbToHex_matches r g b, rgbToHex_length r g b⟩

/-- Claim C2: the quantizer maps a surviving channel value `x` to
`round(x / 20) * 20` with round-half-away-from-zero (150 maps to 160 and
255 to 260); the representative value may exceed 255 and is not clamped at
the quantization stage, the clamp to 255 happening only in the encoder. -/
theorem quantizer_spec :
    (∀ x : Nat, (quantize x : ℤ) = specRound ((x : ℚ) / 20) * 20)
  ∧ quantize 150 = 160
  ∧ quantize 255 = 260
  ∧ 255 < quantize 255
  ∧ clampByte ((quantize 255 : Nat) : ℚ) = 255 := by
  refine ⟨fun x => ?_, by decide, by decide, by decide, ?_⟩
  · have h0 : (0 : ℚ) ≤ (x : ℚ) / 20 := by positivity
    rw [specRound, if_pos h0, ← round_eq]
    exact quantize_eq_round x
  · rw [clampByte_natCast]
    decide

/-- The final defensive filter of `extract` removes nothing: every encoded
string already has length 7. -/
theorem extract_eq_map (pixels : List Nat) :
    extract pixels =
      (rankBuckets (sampleLoop pixels [])).map
        (fun e => rgbToHex (e.r : ℚ) (e.g : ℚ) (e.b : ℚ)) := by
  unfold extract
  rw [List.filter_eq_self]
  intro s hs
  obtain ⟨e, _, rfl⟩ := List.mem_map.1 hs
  simp [rgbToHex_length]

/-- Claim C9: the final 7-character length filter never removes anything:
every encoded string has length exactly 7, so `extract` equals the
unfiltered encoding of the ranked buckets. -/
theorem length_filter_vacuous :
    (∀ r g b : ℚ, (rgbToHex r g b).length = 7)
  ∧ ∀ pixels : List Nat,
      extract pixels =
        (rankBuckets (sampleLoop pixels [])).map
          (fun e => rgbToHex (e.r : ℚ) (e.g : ℚ) (e.b : ℚ)) :=
  ⟨rgbToHex_length, extract_eq_map⟩

/-- Claim C1: for every valid RGBA buffer the extraction pipeline returns
between 0 and 5 strings, each matching `^#[0-9a-f]{6}$`. -/
theorem extract_output_wellformed (pixels : List Nat)
    (hvalid : ∀ x ∈ pixels, x < 256) :
    (extract pixels).length ≤ 5
  ∧ ∀ s ∈ extract pixels, matchesHexPattern s = true := by
  constructor
  · calc (extract pixels).length
        ≤ ((rankBuckets (sampleLoop pixels [])).map
            (fun e => rgbToHex (e.r : ℚ) (e.g : ℚ) (e.b : ℚ))).length :=
          List.length_filter_le _ _
      _ = (rankBuckets (sampleLoop pixels [])).length := List.length_map _ _
      _ ≤ 5 := by
          unfold rankBuckets
          simp [List.length_take]
  · intro s hs
    obtain ⟨e, _, rfl⟩ := List.mem_map.1 (List.mem_of_mem_filter hs)
    exact rgbToHex_matches _ _ _

/-- Witness for claim C1 at a concrete one-pixel buffer. -/
theorem extract_output_wellformed_witness :
    (extract [100, 150, 200, 255]).length ≤ 5 :=
  (extract_output_wellformed [100, 150, 200, 255] (by decide)).1

/-- Inserting a bucket into a list leaves each count class of the filter
unchanged except for prepending the bucket to its own class: the insertion
point is after every earlier bucket of greater-or-equal count. -/
theorem filter_orderedInsert (x : Bucket) (c : Nat) (l : List Bucket) :
    (List.orderedInsert countGe x l).filter (fun e => e.count == c) =
      if x.count = c then x :: l.filter (fun e => e.count == c)
      else l.filter (fun e => e.count == c) := by
  induction l with
  | nil =>
    by_cases hx : x.count = c <;> simp [List.orderedInsert, hx]
  | cons b l ih =>
    rw [List.orderedInsert]
    by_cases hr : countGe x b
    · rw [if_pos hr]
      by_cases hx : x.count = c <;> simp [List.filter_cons, hx]
    · rw [if_neg hr]
      have hxb : x.count < b.count := by
        unfold countGe at hr
        omega
      by_cases hx : x.count = c
      · have hb : (b.count == c) = false := by
          simp only [beq_eq_false_iff_ne]
          omega
        simp [List.filter_cons, hb, ih, hx]
      · simp [List.filter_cons, ih, hx]

/-- Stability of the ranker's sort: every count class comes out in the
relative order in which its buckets were first created during the scan. -/
theorem sortDesc_stable (l : List Bucket) (c : Nat) :
    (sortDesc l).filter (fun e => e.count == c) = l.filter (fun e => e.count == c) := by
  unfold sortDesc
  induction l with
  | nil => rfl
  | cons b l ih =>
    rw [List.insertionSort, filter_orderedInsert]
    by_cases hb : b.count = c
    · rw [if_pos hb, ih, List.filter_cons]
      simp [hb]
    · rw [if_neg hb, ih, List.filter_cons]
      simp [hb]

/-- The ranker's sort is descending in count. -/
theorem sortDesc_sorted (l : List Bucket) : List.Pairwise countGe (sortDesc l) :=
  List.sorted_insertionSort countGe l

/-- The ranker's sort is a permutation of the scanned buckets. -/
theorem sortDesc_perm (l : List Bucket) : List.Perm (sortDesc l) l :=
  List.perm_insertionSort countGe l

/-- Claim C3: the ranker sorts the buckets by count descending with a
stable tie-break (equal counts keep first-created order), truncates to the
top 5 and returns everything when fewer than 5 buckets exist; every bucket
in the output is followed only by buckets of smaller-or-equal count. -/
theorem ranker_spec (m : List Bucket) :
    List.Pairwise countGe (sortDesc m)
  ∧ (∀ c : Nat,
      (sortDesc m).filter (fun e => e.count == c) = m.filter (fun e => e.count == c))
  ∧ rankBuckets m = (sortDesc m).take 5
  ∧ (rankBuckets m).length = min 5 m.length
  ∧ (m.length ≤ 5 → rankBuckets m = sortDesc m)
  ∧ List.Pairwise countGe (rankBuckets m) := by
  refine ⟨sortDesc_sorted m, sortDesc_stable m, rfl, ?_, ?_, ?_⟩
  · unfold rankBuckets sortDesc
    rw [List.length_take, List.length_insertionSort]
  · intro h5
    unfold rankBuckets
    apply List.take_all_of_le
    unfold sortDesc
    rw [List.length_insertionSort]
    exact h5
  · exact List.Pairwise.sublist (List.take_sublist 5 _) (sortDesc_sorted m)

/-- Witness for claim C3: a two-bucket map is returned whole. -/
theorem ranker_spec_witness :
    rankBuckets [Bucket.mk 0 0 0 2, Bucket.mk 20 0 0 1] =
      sortDesc [Bucket.mk 0 0 0 2, Bucket.mk 20 0 0 1] :=
  (ranker_spec [Bucket.mk 0 0 0 2, Bucket.mk 20 0 0 1]).2.2.2.2.1 (by decide)

/-- Claim C5 counterexample: for a 1 by 301 image the computed canvas width
is 0, so no 1 by 1 minimum is enforced by the downscaler. -/
theorem downscaler_no_min_counterexample :
    canvasWidth 1 301 = 0 ∧ ¬ (1 ≤ canvasWidth 1 301) := by
  have h1 : scaleRatio 1 301 = ((300 : Nat) : ℚ) / ((301 : Nat) : ℚ) := by
    unfold scaleRatio
    rw [min_eq_right] <;> norm_num
  have h : canvasWidth 1 301 = 0 := by
    unfold canvasWidth
    rw [h1, show ((1 : Nat) : ℚ) * (((300 : Nat) : ℚ) / ((301 : Nat) : ℚ)) =
        ((300 : Nat) : ℚ) / ((301 : Nat) : ℚ) by push_cast; ring,
      Rat.floor_natCast_div_natCast]
    decide
  rw [h]
  exact ⟨rfl, by decide⟩

/-- Claim C5 (amended): the downscaler computes `r = min(300/W, 300/H)`
without capping it at 1 (both dimensions at most 300 give `r ≥ 1`, i.e.
upscaling), and the output dimensions are `floor(W*r)` by `floor(H*r)`,
each between 0 and 300 — no 1 by 1 minimum is enforced. -/
theorem downscaler_amended (w h : Nat) (hw : 0 < w) (hh : 0 < h) :
    canvasWidth w h = ⌊(w : ℚ) * min (300 / (w : ℚ)) (300 / (h : ℚ))⌋
  ∧ canvasHeight w h = ⌊(h : ℚ) * min (300 / (w : ℚ)) (300 / (h : ℚ))⌋
  ∧ (w ≤ 300 → h ≤ 300 → 1 ≤ scaleRatio w h)
  ∧ 0 ≤ canvasWidth w h ∧ canvasWidth w h ≤ 300
  ∧ 0 ≤ canvasHeight w h ∧ canvasHeight w h ≤ 300 := by
  have hw0 : (0 : ℚ) < (w : ℚ) := by exact_mod_cast hw
  have hh0 : (0 : ℚ) < (h : ℚ) := by exact_mod_cast hh
  have hmin0 : 0 ≤ min (300 / (w : ℚ)) (300 / (h : ℚ)) :=
    le_min (by positivity) (by positivity)
  have hfloor300 : ⌊(300 : ℚ)⌋ = 300 := by norm_num
  have hwle : (w : ℚ) * min (300 / (w : ℚ)) (300 / (h : ℚ)) ≤ 300 := by
    calc (w : ℚ) * min (300 / (w : ℚ)) (300 / (h : ℚ))
        ≤ (w : ℚ) * (300 / (w : ℚ)) :=
          mul_le_mul_of_nonneg_left (min_le_left _ _) (le_of_lt hw0)
      _ = 300 := by field_simp
  have hhle : (h : ℚ) * min (300 / (w : ℚ)) (300 / (h : ℚ)) ≤ 300 := by
    calc (h : ℚ) * min (300 / (w : ℚ)) (300 / (h : ℚ))
        ≤ (h : ℚ) * (300 / (h : ℚ)) :=
          mul_le_mul_of_nonneg_left (min_le_right _ _) (le_of_lt hh0)
      _ = 300 := by field_simp
  refine ⟨rfl, rfl, ?_, ?_, ?_, ?_, ?_⟩
  · intro h3 h4
    unfold scaleRatio
    apply le_min
    · rw [le_div_iff hw0]
      rw [one_mul]
      exact_mod_cast h3
    · rw [le_div_iff hh0]
      rw [one_mul]
      exact_mod_cast h4
  · exact Int.floor_nonneg.2 (mul_nonneg (le_of_lt hw0) hmin0)
  · calc canvasWidth w h ≤ ⌊(300 : ℚ)⌋ := Int.floor_le_floor hwle
      _ = 300 := hfloor300
  · exact Int.floor_nonneg.2 (mul_nonneg (le_of_lt hh0) hmin0)
  · calc canvasHeight w h ≤ ⌊(300 : ℚ)⌋ := Int.floor_le_floor hhle
      _ = 300 := hfloor300

/-- Witness for claim C5 (amended): a 10 by 10 image has scale ratio at
least 1 (it is in fact upscaled). -/
theorem downscaler_amended_witness : 1 ≤ scaleRatio 10 10 :=
  (downscaler_amended 10 10 (by decide) (by decide)).2.2.1 (by decide) (by decide)

/-- The sampling loop performs exactly `ceil(length / 16)` iterations:
one per 16 buffer bytes, i.e. one per 4 pixels. -/
theorem countVisits_formula (l : List Nat) : countVisits l = (l.length + 15) / 16 := by
  induction l using countVisits.induct with
  | case1 =>
    rw [countVisits]
    simp
  | case2 x t ih =>
    rw [countVisits, ih, List.length_drop]
    simp only [List.length_cons]
    omega

/-- `ceil(N / 4)` as natural arithmetic. -/
theorem ceil_div_four (N : Nat) : ⌈(N : ℚ) / 4⌉₊ = (N + 3) / 4 := by
  rcases Nat.eq_zero_or_pos N with h | h
  · subst h
    norm_num
  · rw [Nat.ceil_eq_iff (by omega : (N + 3) / 4 ≠ 0)]
    constructor
    · rw [lt_div_iff (by norm_num : (0 : ℚ) < 4)]
      have hlt : ((N + 3) / 4 - 1) * 4 < N := by omega
      exact_mod_cast hlt
    · rw [div_le_iff (by norm_num : (0 : ℚ) < 4)]
      have hle : N ≤ (N + 3) / 4 * 4 := by omega
      exact_mod_cast hle

/-- Claim C8: on a buffer of `N` pixels the sampler visits exactly
`ceil(N / 4)` pixel positions — the byte index advances by 16 per step —
and every visit's base byte index is inside the buffer. -/
theorem stride_visit_count (l : List Nat) (N : Nat) (hlen : l.length = 4 * N) :
    countVisits l = ⌈(N : ℚ) / 4⌉₊
  ∧ ∀ i, i < countVisits l → 16 * i < l.length := by
  have hcv := countVisits_formula l
  constructor
  · rw [hcv, hlen, ceil_div_four]
    omega
  · intro i hi
    rw [hcv] at hi
    omega

/-- Witness for claim C8 on a one-pixel buffer. -/
theorem stride_visit_count_witness :
    countVisits [100, 150, 200, 255] = ⌈((1 : Nat) : ℚ) / 4⌉₊ :=
  (stride_visit_count [100, 150, 200, 255] 1 (by decide)).1

/-- A visited pixel whose alpha byte is in bounds and below 128 is
skipped. -/
theorem step_skip_alpha (l : List Nat) (m : List Bucket) (a : Nat)
    (h3 : l.get? 3 = some a) (h128 : a < 128) : step l m = m := by
  rcases l with _ | ⟨x0, l⟩
  · simp at h3
  rcases l with _ | ⟨x1, l⟩
  · simp at h3
  rcases l with _ | ⟨x2, l⟩
  · simp at h3
  rcases l with _ | ⟨x3, l⟩
  · simp at h3
  have hx3 : x3 = a := by simpa using h3
  subst hx3
  simp [step, h128]

/-- A visited pixel with any of its r, g, b bytes out of bounds is
skipped. -/
theorem step_skip_short (l : List Nat) (m : List Bucket)
    (h : l.get? 2 = none) : step l m = m := by
  rcases l with _ | ⟨x0, _ | ⟨x1, _ | ⟨x2, rest⟩⟩⟩
  · rfl
  · rfl
  · rfl
  · simp at h

/-- On a buffer whose length is a multiple of 4 and all of whose alpha
bytes are below 128, the sampling loop counts nothing. -/
theorem sampleLoop_transparent (pixels : List Nat) (m : List Bucket) :
    pixels.length % 4 = 0 →
    (∀ i a, i % 4 = 3 → pixels.get? i = some a → a < 128) →
    sampleLoop pixels m = m := by
  induction pixels, m using sampleLoop.induct with
  | case1 m =>
    intro _ _
    rw [sampleLoop]
  | case2 x t m ih =>
    intro h4 ha
    have hlen4 : 3 < (x :: t).length := by
      simp only [List.length_cons] at h4 ⊢
      omega
    have hget : (x :: t).get? 3 = some ((x :: t).get ⟨3, hlen4⟩) := List.get?_eq_get hlen4
    have ha3 : (x :: t).get ⟨3, hlen4⟩ < 128 := ha 3 _ (by decide) hget
    have hstep : step (x :: t) m = m := step_skip_alpha _ _ _ hget ha3
    rw [hstep] at ih
    rw [sampleLoop, hstep]
    apply ih
    · rw [List.length_drop]
      simp only [List.length_cons] at h4 ⊢
      omega
    · intro i a hi hget2
      apply ha (16 + i) a (by omega)
      rw [← List.get?_drop]
      exact hget2

/-- Claim C6 counterexample: a 3-byte buffer is a short pixel entry (its
alpha byte is out of bounds), yet the pixel is counted, because in
JavaScript `undefined < 128` is false and only r, g, b are checked for
`undefined`; the claim's "every malformed or short pixel entry is skipped"
would require an empty result here. -/
theorem sampler_short_pixel_counterexample :
    extract [0, 0, 0] = ["#000000"] ∧ extract [0, 0, 0] ≠ [] := by
  have h : extract [0, 0, 0] = ["#000000"] := by
    simp [extract, sampleLoop, step, bumpKey, quantize, rankBuckets, sortDesc,
      clampByte_natCast, rgbToHex, padHex2, hexDigit]
    decide
  refine ⟨h, ?_⟩
  rw [h]
  decide

/-- Claim C6 (amended): a visited pixel is skipped when its alpha byte is
in bounds with value below 128, or when any of its r, g, b bytes is out of
the buffer bounds; a pixel entry whose r, g, b bytes are in bounds but
whose alpha byte is out of bounds is counted rather than skipped
(JavaScript's `undefined < 128` is false); extraction is total, the empty
buffer yields the empty sequence, and a fully transparent image (length a
multiple of 4, every alpha byte below 128) also yields the empty
sequence. -/
theorem sampler_skip_amended :
    (∀ (l : List Nat) (m : List Bucket) (a : Nat),
        l.get? 3 = some a → a < 128 → step l m = m)
  ∧ (∀ (l : List Nat) (m : List Bucket), l.get? 2 = none → step l m = m)
  ∧ (∀ (x0 x1 x2 : Nat) (m : List Bucket),
        step [x0, x1, x2] m = bumpKey (quantize x0) (quantize x1) (quantize x2) m)
  ∧ extract [] = []
  ∧ (∀ pixels : List Nat, pixels.length % 4 = 0 →
        (∀ i a, i % 4 = 3 → pixels.get? i = some a → a < 128) →
        extract pixels = []) := by
  refine ⟨step_skip_alpha, step_skip_short, fun x0 x1 x2 m => rfl, ?_, ?_⟩
  · unfold extract
    rw [show sampleLoop ([] : List Nat) [] = [] from by rw [sampleLoop]]
    rfl
  · intro pixels h4 ha
    unfold extract
    rw [sampleLoop_transparent pixels [] h4 ha]
    rfl

/-- Witness for claim C6 (amended): a low-alpha pixel is skipped. -/
theorem sampler_skip_amended_witness :
    step [10, 20, 30, 0] [] = [] :=
  sampler_skip_amended.1 [10, 20, 30, 0] [] 0 (by decide) (by decide)

/-- On a buffer made of `n` copies of the pixel (100, 150, 200, 255) the
sampling loop performs `ceil(n / 4)` insert-or-increments of the single
quantized key (100, 160, 200). -/
theorem sampleLoop_rep (n : Nat) (m : List Bucket) :
    sampleLoop ((List.replicate n [100, 150, 200, 255]).join) m =
      bumpRep ((n + 3) / 4) m := by
  induction n using Nat.strong_induction_on generalizing m with
  | _ n ih =>
    rcases n with _ | ⟨_ | ⟨_ | ⟨_ | k⟩⟩⟩
    · rw [show ((List.replicate 0 [100, 150, 200, 255]).join : List Nat) = [] from rfl,
        sampleLoop]
      rfl
    · rw [show (List.replicate 1 [100, 150, 200, 255]).join =
          [100, 150, 200, 255] from rfl]
      simp [sampleLoop, step, quantize, bumpRep]
    · rw [show (List.replicate 2 [100, 150, 200, 255]).join =
          [100, 150, 200, 255, 100, 150, 200, 255] from rfl]
      simp [sampleLoop, step, quantize, bumpRep]
    · rw [show (List.replicate 3 [100, 150, 200, 255]).join =
          [100, 150, 200, 255, 100, 150, 200, 255, 100, 150, 200, 255] from rfl]
      simp [sampleLoop, step, quantize, bumpRep]
    · have hcons : (List.replicate (k + 1 + 1 + 1 + 1) [100, 150, 200, 255]).join =
          100 :: 150 :: 200 :: 255 :: 100 :: 150 :: 200 :: 255 :: 100 :: 150 :: 200 ::
            255 :: 100 :: 150 :: 200 :: 255 ::
            (List.replicate k [100, 150, 200, 255]).join := by
        simp [List.replicate_succ]
      rw [hcons, sampleLoop]
      have hstep : step (100 :: 150 :: 200 :: 255 :: 100 :: 150 :: 200 :: 255 :: 100 ::
          150 :: 200 :: 255 :: 100 :: 150 :: 200 :: 255 ::
          (List.replicate k [100, 150, 200, 255]).join) m = bumpKey 100 160 200 m := by
        simp [step, quantize]
      rw [hstep]
      rw [show (100 :: 150 :: 200 :: 255 :: 100 :: 150 :: 200 :: 255 :: 100 :: 150 ::
          200 :: 255 :: 100 :: 150 :: 200 :: 255 ::
          (List.replicate k [100, 150, 200, 255]).join).drop 16 =
          (List.replicate k [100, 150, 200, 255]).join from rfl]
      rw [ih k (by omega)]
      rw [show (k + 1 + 1 + 1 + 1 + 3) / 4 = (k + 3) / 4 + 1 from by omega]
      rfl

/-- Iterating the insert-or-increment on a singleton map of the same key
just accumulates the count. -/
theorem bumpRep_single (k c : Nat) :
    bumpRep k [Bucket.mk 100 160 200 c] = [Bucket.mk 100 160 200 (c + k)] := by
  induction k generalizing c with
  | zero => rfl
  | succ k ih =>
    rw [bumpRep,
      show bumpKey 100 160 200 [Bucket.mk 100 160 200 c] =
        [Bucket.mk 100 160 200 (c + 1)] from by simp [bumpKey],
      ih, show c + 1 + k = c + (k + 1) from by omega]

/-- Iterating the insert-or-increment at least once starting from the
empty map yields a single bucket holding the iteration count. -/
theorem bumpRep_nil (k : Nat) (hk : 0 < k) :
    bumpRep k [] = [Bucket.mk 100 160 200 k] := by
  cases k with
  | zero => omega
  | succ j =>
    rw [bumpRep, show bumpKey 100 160 200 ([] : List Bucket) =
        [Bucket.mk 100 160 200 1] from rfl, bumpRep_single,
      show 1 + j = j + 1 from by omega]

/-- Claim C7: every nonempty buffer consisting entirely of the pixel
(100, 150, 200, 255) extracts to exactly the one hex string `#64a0c8`,
the quantized-and-clamped encoding of that color via the quantized triple
(100, 160, 200). -/
theorem single_color_extract (n : Nat) (hn : 0 < n) :
    extract ((List.replicate n [100, 150, 200, 255]).join) = ["#64a0c8"] := by
  unfold extract
  rw [sampleLoop_rep, bumpRep_nil _ (by omega : 0 < (n + 3) / 4)]
  simp [rankBuckets, sortDesc, clampByte_natCast, rgbToHex, padHex2, hexDigit]
  decide

/-- Witness for claim C7 at a one-pixel buffer. -/
theorem single_color_extract_witness :
    extract ((List.replicate 1 [100, 150, 200, 255]).join) = ["#64a0c8"] :=
  single_color_extract 1 (by decide)

/-- Quantized valid bytes land in the range described by `chanProp`. -/
theorem quantize_chanProp (x0 x1 x2 : Nat) (h0 : x0 < 256) (h1 : x1 < 256)
    (h2 : x2 < 256) : chanProp (quantize x0) (quantize x1) (quantize x2) := by
  unfold chanProp quantize
  omega

/-- Insert-or-increment either keeps the key list unchanged (present key)
or appends the fresh key at the end. -/
theorem bumpKey_map_keyOf (r g b : Nat) (m : List Bucket) :
    (bumpKey r g b m).map keyOf = m.map keyOf
  ∨ (bumpKey r g b m).map keyOf = m.map keyOf ++ [(r, g, b)]
      ∧ (r, g, b) ∉ m.map keyOf := by
  induction m with
  | nil =>
    right
    constructor
    · simp [bumpKey, keyOf]
    · simp
  | cons e m ih =>
    rw [bumpKey]
    by_cases h : e.r = r ∧ e.g = g ∧ e.b = b
    · rw [if_pos h]
      left
      simp [keyOf]
    · rw [if_neg h]
      rcases ih with h1 | ⟨h1, h2⟩
      · left
        simp [keyOf, h1]
      · right
        constructor
        · simp [keyOf, h1]
        · simp only [List.map_cons, List.mem_cons]
          push_neg
          constructor
          · simp only [keyOf, Prod.mk.injEq, ne_eq]
            omega
          · exact h2

/-- Insert-or-increment preserves distinctness of the map keys. -/
theorem bumpKey_nodup (r g b : Nat) (m : List Bucket)
    (h : (m.map keyOf).Nodup) : ((bumpKey r g b m).map keyOf).Nodup := by
  rcases bumpKey_map_keyOf r g b m with h1 | ⟨h1, h2⟩
  · rw [h1]
    exact h
  · rw [h1]
    exact h.append (List.nodup_singleton _) (List.disjoint_singleton.2 h2)

/-- Insert-or-increment preserves any channel-only property of the
buckets. -/
theorem bumpKey_chans (P : Nat → Nat → Nat → Prop) (r g b : Nat)
    (hnew : P r g b) :
    ∀ m : List Bucket, (∀ e ∈ m, P e.r e.g e.b) →
      ∀ e ∈ bumpKey r g b m, P e.r e.g e.b := by
  intro m
  induction m with
  | nil =>
    intro _ e he
    simp [bumpKey] at he
    subst he
    simpa using hnew
  | cons e0 m ih =>
    intro hm e he
    rw [bumpKey] at he
    by_cases h : e0.r = r ∧ e0.g = g ∧ e0.b = b
    · rw [if_pos h] at he
      rcases List.mem_cons.1 he with rfl | he2
      · simpa using hm e0 (List.mem_cons_self _ _)
      · exact hm e (List.mem_cons_of_mem _ he2)
    · rw [if_neg h] at he
      rcases List.mem_cons.1 he with rfl | he2
      · exact hm _ (List.mem_cons_self _ _)
      · exact ih (fun e1 he1 => hm e1 (List.mem_cons_of_mem _ he1)) e he2

/-- One loop iteration preserves the scan invariant: distinct keys and
in-range quantized channels. -/
theorem step_inv (l : List Nat) (m : List Bucket)
    (hl : ∀ x ∈ l, x < 256)
    (hm1 : (m.map keyOf).Nodup) (hm2 : ∀ e ∈ m, chanProp e.r e.g e.b) :
    ((step l m).map keyOf).Nodup ∧ ∀ e ∈ step l m, chanProp e.r e.g e.b := by
  rcases l with _ | ⟨x0, _ | ⟨x1, _ | ⟨x2, _ | ⟨x3, rest⟩⟩⟩⟩
  · exact ⟨hm1, hm2⟩
  · exact ⟨hm1, hm2⟩
  · exact ⟨hm1, hm2⟩
  · have h0 : x0 < 256 := hl x0 (by simp)
    have h1 : x1 < 256 := hl x1 (by simp)
    have h2 : x2 < 256 := hl x2 (by simp)
    exact ⟨bumpKey_nodup _ _ _ _ hm1,
      bumpKey_chans chanProp _ _ _ (quantize_chanProp x0 x1 x2 h0 h1 h2) m hm2⟩
  · by_cases ha : x3 < 128
    · have hstep : step (x0 :: x1 :: x2 :: x3 :: rest) m = m := by
        show (if x3 < 128 then m
          else bumpKey (quantize x0) (quantize x1) (quantize x2) m) = m
        rw [if_pos ha]
      rw [hstep]
      exact ⟨hm1, hm2⟩
    · have hstep : step (x0 :: x1 :: x2 :: x3 :: rest) m =
          bumpKey (quantize x0) (quantize x1) (quantize x2) m := by
        show (if x3 < 128 then m
          else bumpKey (quantize x0) (quantize x1) (quantize x2) m) =
          bumpKey (quantize x0) (quantize x1) (quantize x2) m
        rw [if_neg ha]
      rw [hstep]
      have h0 : x0 < 256 := hl x0 (by simp)
      have h1 : x1 < 256 := hl x1 (by simp)
      have h2 : x2 < 256 := hl x2 (by simp)
      exact ⟨bumpKey_nodup _ _ _ _ hm1,
        bumpKey_chans chanProp _ _ _ (quantize_chanProp x0 x1 x2 h0 h1 h2) m hm2⟩

/-- The whole sampling loop preserves the scan invariant. -/
theorem sampleLoop_inv (pixels : List Nat) (m : List Bucket) :
    (∀ x ∈ pixels, x < 256) →
    ((m.map keyOf).Nodup ∧ ∀ e ∈ m, chanProp e.r e.g e.b) →
    ((sampleLoop pixels m).map keyOf).Nodup
      ∧ ∀ e ∈ sampleLoop pixels m, chanProp e.r e.g e.b := by
  induction pixels, m using sampleLoop.induct with
  | case1 m =>
    intro _ hm
    rw [sampleLoop]
    exact hm
  | case2 x t m ih =>
    intro hl hm
    rw [sampleLoop]
    exact ih (fun y hy => hl y (List.mem_of_mem_drop hy))
      (step_inv (x :: t) m hl hm.1 hm.2)

/-- The encoder is injective on the quantizer's range: clamping to 255 is
injective on multiples of 20 up to 260, and the two-digit renderings are
injective on bytes. -/
theorem rgbToHex_key_inj (r1 g1 b1 r2 g2 b2 : Nat)
    (h1 : chanProp r1 g1 b1) (h2 : chanProp r2 g2 b2)
    (heq : rgbToHex (r1 : ℚ) (g1 : ℚ) (b1 : ℚ) =
      rgbToHex (r2 : ℚ) (g2 : ℚ) (b2 : ℚ)) :
    r1 = r2 ∧ g1 = g2 ∧ b1 = b2 := by
  unfold rgbToHex at heq
  rw [clampByte_natCast, clampByte_natCast, clampByte_natCast,
    clampByte_natCast, clampByte_natCast, clampByte_natCast] at heq
  injection heq with hlist
  injection hlist with _ hlist
  obtain ⟨hrg, hb⟩ := List.append_inj hlist (by simp [padHex2_length])
  obtain ⟨hr, hg⟩ := List.append_inj hrg (by simp [padHex2_length])
  have er : min 255 r1 = min 255 r2 := padHex2_inj _ _ (by omega) (by omega) hr
  have eg : min 255 g1 = min 255 g2 := padHex2_inj _ _ (by omega) (by omega) hg
  have eb : min 255 b1 = min 255 b2 := padHex2_inj _ _ (by omega) (by omega) hb
  unfold chanProp at h1 h2
  refine ⟨by omega, by omega, by omega⟩

/-- Claim C10: the extracted sequence never contains duplicate hex
strings — distinct quantization keys encode to distinct strings, because
the clamp to [0, 255] is injective on multiples of 20 up to 260. -/
theorem extract_nodup (pixels : List Nat)
    (hvalid : ∀ x ∈ pixels, x < 256) :
    (extract pixels).Nodup := by
  have hinv : ((sampleLoop pixels []).map keyOf).Nodup
      ∧ ∀ e ∈ sampleLoop pixels [], chanProp e.r e.g e.b :=
    sampleLoop_inv pixels [] hvalid ⟨by simp, by simp⟩
  have hperm := sortDesc_perm (sampleLoop pixels [])
  have hkeys1 : ((sortDesc (sampleLoop pixels [])).map keyOf).Nodup :=
    ((hperm.map keyOf).nodup_iff).2 hinv.1
  have hkeys2 : ((rankBuckets (sampleLoop pixels [])).map keyOf).Nodup := by
    unfold rankBuckets
    rw [List.map_take]
    exact List.Nodup.sublist (List.take_sublist _ _) hkeys1
  have hchan : ∀ e ∈ rankBuckets (sampleLoop pixels []), chanProp e.r e.g e.b := by
    intro e he
    exact hinv.2 e (hperm.subset (List.mem_of_mem_take he))
  rw [extract_eq_map]
  have hfactor : (rankBuckets (sampleLoop pixels [])).map
      (fun e => rgbToHex (e.r : ℚ) (e.g : ℚ) (e.b : ℚ))
      = ((rankBuckets (sampleLoop pixels [])).map keyOf).map
          (fun k => rgbToHex (k.1 : ℚ) (k.2.1 : ℚ) (k.2.2 : ℚ)) := by
    rw [List.map_map]
    rfl
  rw [hfactor]
  apply List.Nodup.map_on ?_ hkeys2
  intro k1 hk1 k2 hk2 hkeq
  obtain ⟨e1, he1, hke1⟩ := List.mem_map.1 hk1
  obtain ⟨e2, he2, hke2⟩ := List.mem_map.1 hk2
  have hc1 : chanProp k1.1 k1.2.1 k1.2.2 := by
    rw [← hke1]
    exact hchan e1 he1
  have hc2 : chanProp k2.1 k2.2.1 k2.2.2 := by
    rw [← hke2]
    exact hchan e2 he2
  obtain ⟨e1, e2, e3⟩ :=
    rgbToHex_key_inj k1.1 k1.2.1 k1.2.2 k2.1 k2.2.1 k2.2.2 hc1 hc2 hkeq
  exact Prod.ext e1 (Prod.ext e2 e3)

/-- Witness for claim C10 at a concrete one-pixel buffer. -/
theorem extract_nodup_witness : (extract [100, 150, 200, 255]).Nodup :=
  extract_nodup [100, 150, 200, 255] (by decide)

end ColorPalette
